import Mathlib

set_option maxRecDepth 40000

/-!
Verification of mnemonic-16bit (src/src/lib.rs).

The library converts binary data to a mnemonic phrase and back.  Each pair
of bytes becomes one word of a 1024-entry dictionary (10 bits) plus a
decimal suffix in [0,63] (6 bits); an odd trailing byte becomes a word
indexed by the byte itself with the literal suffix "64".

Strings are modelled at the character level as `List Char`; all data the
program manipulates (dictionary words, digits, spaces) is ASCII, where
Rust byte indices and character indices coincide.  Bytes are modelled as
natural numbers below 256; `u16` arithmetic carries an explicit
`% 65536` at each operation that could overflow.

The word dictionary is an external collaborator (the seed15 crate), not
part of this repository's sources, so it is modelled from the spec as any
fixed list of 1024 words with pairwise-distinct prefixes of the declared
unique-prefix length; see `Dict`.
-/

/-- Rust's `char::is_ascii_digit`: true exactly for '0'..'9'. -/
def isAsciiDigit (c : Char) : Bool :=
  48 ≤ c.toNat && c.toNat ≤ 57

/-- The decimal digit character for a value below 10 (used by the decimal
rendering of the numeric suffix). -/
def digitChar (n : Nat) : Char :=
  match n with
  | 0 => '0' | 1 => '1' | 2 => '2' | 3 => '3' | 4 => '4'
  | 5 => '5' | 6 => '6' | 7 => '7' | 8 => '8' | _ => '9'

/-- Decimal rendering of a number below 100, unpadded, as produced by
Rust's `format!("{}", num)` for such values (the encoder only renders
`data[i+1] % 64`, which is below 64). -/
def natDigits (n : Nat) : List Char :=
  if n < 10 then [digitChar n] else [digitChar (n / 10), digitChar (n % 10)]

/-- Numeric value of a digit character (c as u32 minus '0'). -/
def digitVal (c : Char) : Nat :=
  c.toNat - 48

/-- Decimal parse of a digit string, as `str::parse::<u16>` computes it on
the all-digit suffixes the decoder feeds it (length at most 2, so the
value is at most 99 and never overflows `u16`). -/
def parseDigits (s : List Char) : Nat :=
  s.foldl (fun a c => 10 * a + digitVal c) 0

/-- Modelled from the spec: the external seed15 dictionary collaborator
(`DICTIONARY` and `DICTIONARY_UNIQUE_PREFIX`), which is not part of this
repository's sources.  Per the spec it is a fixed ordered sequence of
exactly 1024 distinct words, each at least as long as the declared
unique-prefix length `upl`, pairwise distinct on their first `upl`
characters; the words are alphabetic, so they contain no decimal digits
and no spaces. -/
structure Dict where
  words : List (List Char)
  upl : Nat
  words_len : words.length = 1024
  min_len : ∀ w ∈ words, upl ≤ w.length
  no_digit : ∀ w ∈ words, ∀ c ∈ w, isAsciiDigit c = false
  no_space : ∀ w ∈ words, ' ' ∉ w
  uniq : (words.map (fun w => w.take upl)).Nodup

/-- The phrase-composition step of `binary_to_phrase`: a space separator is
written before the new token whenever the phrase built so far is
nonempty. -/
def appendTok (phrase tok : List Char) : List Char :=
  (if phrase.length ≠ 0 then phrase ++ [' '] else phrase) ++ tok

/-- The loop of `binary_to_phrase`: consume two bytes at a time while at
least two remain, then turn an odd trailing byte into a terminal token.
Dictionary indexing is modelled with `List.get?`, so an out-of-bounds
access (a Rust panic) yields `none`. -/
def encodeLoop (d : Dict) : List Nat → List Char → Option (List Char)
  | [], phrase => some phrase
  | [b0], phrase =>
      match d.words.get? b0 with
      | none => none
      | some w => some (appendTok phrase (w ++ ['6', '4']))
  | b0 :: b1 :: rest, phrase =>
      match d.words.get? ((b0 * 4 % 65536 + b1 / 64) % 65536) with
      | none => none
      | some w => encodeLoop d rest (appendTok phrase (w ++ natDigits (b1 % 64)))

/-- `binary_to_phrase` from src/src/lib.rs: convert a byte sequence to a
phrase.  `none` models a panic from an out-of-bounds dictionary access
(which never occurs for byte inputs). -/
def binary_to_phrase (d : Dict) (data : List Nat) : Option (List Char) :=
  encodeLoop d data []

/-- Outcome of `dict_index`: the word's index, the "word is not in
dictionary" error, or a Rust panic from slicing a too-short word. -/
inductive LookupResult where
  | ok (idx : Nat)
  | err
  | panicked
deriving DecidableEq

/-- The scan loop of `dict_index`: return the first index whose
dictionary word agrees with `pfx` on its first `upl` characters. -/
def scanDict (upl : Nat) (pfx : List Char) : List (List Char) → Nat → Option Nat
  | [], _ => none
  | w :: ws, i => if w.take upl = pfx then some i else scanDict upl pfx ws (i + 1)

/-- `dict_index` from src/src/lib.rs: index of the word in the dictionary,
comparing only the first `DICTIONARY_UNIQUE_PREFIX` characters.  The Rust
code slices `&word[..DICTIONARY_UNIQUE_PREFIX]` without a length check,
which panics when the supplied word is shorter: modelled by
`LookupResult.panicked`. -/
def dict_index (d : Dict) (word : List Char) : LookupResult :=
  if word.length < d.upl then LookupResult.panicked
  else
    match scanDict d.upl (word.take d.upl) d.words 0 with
    | some i => LookupResult.ok i
    | none => LookupResult.err

/-- The decode-side error taxonomy: each constructor corresponds to one
`bail!` site of `phrase_to_binary` or `dict_index`. -/
inductive DecodeErr where
  | misplacedTerminal
  | suffixNotTrailing
  | suffixTooLong
  | missingSuffix
  | wordNotFound
  | terminalWordOutOfRange
  | suffixOutOfRange
deriving DecidableEq

/-- Decidable equality for the result of the digit scan. -/
instance : DecidableEq (Except DecodeErr Nat) := fun a b =>
  match a, b with
  | Except.ok x, Except.ok y =>
      if h : x = y then isTrue (by rw [h]) else isFalse (by intro hc; cases hc; exact h rfl)
  | Except.error x, Except.error y =>
      if h : x = y then isTrue (by rw [h]) else isFalse (by intro hc; cases hc; exact h rfl)
  | Except.ok _, Except.error _ => isFalse (by intro hc; cases hc)
  | Except.error _, Except.ok _ => isFalse (by intro hc; cases hc)

/-- Result of `phrase_to_binary`: decoded bytes, a returned error, or a
Rust panic (reachable through `dict_index` on a short token). -/
inductive DecodeResult where
  | ok (bytes : List Nat)
  | err (e : DecodeErr)
  | panicked
deriving DecidableEq

/-- Result of processing one token of the phrase: bytes to append plus
whether the token was terminal (suffix "64"), an error, or a panic. -/
inductive StepResult where
  | ok (bytes : List Nat) (terminal : Bool)
  | err (e : DecodeErr)
  | panicked
deriving DecidableEq

/-- The per-token character scan of `phrase_to_binary`: count the digit
characters, failing when a digit is followed by a non-digit or when more
than two digits occur. -/
def countDigits : List Char → Nat → Except DecodeErr Nat
  | [], dg => Except.ok dg
  | c :: cs, dg =>
      if 0 < dg ∧ isAsciiDigit c = false then Except.error DecodeErr.suffixNotTrailing
      else if 1 < dg then Except.error DecodeErr.suffixTooLong
      else countDigits cs (if isAsciiDigit c then dg + 1 else dg)

/-- The body of the token loop of `phrase_to_binary` (everything after the
`finalized` check): validate the digit suffix, extract it, and branch on
the literal suffix "64".  The `u16` products and sums carry the explicit
`% 65536`, and the `as u8` casts the `% 256`, of the Rust arithmetic. -/
def processWord (d : Dict) (word : List Char) : StepResult :=
  match countDigits word 0 with
  | Except.error e => StepResult.err e
  | Except.ok dg =>
      if dg = 0 then StepResult.err DecodeErr.missingSuffix
      else
        let numSuffix := if dg = 1 then word.drop (word.length - 1) else word.drop (word.length - 2)
        if numSuffix = ['6', '4'] then
          match dict_index d word with
          | LookupResult.panicked => StepResult.panicked
          | LookupResult.err => StepResult.err DecodeErr.wordNotFound
          | LookupResult.ok wi =>
              if 255 < wi then StepResult.err DecodeErr.terminalWordOutOfRange
              else StepResult.ok [wi % 256] true
        else
          match dict_index d word with
          | LookupResult.panicked => StepResult.panicked
          | LookupResult.err => StepResult.err DecodeErr.wordNotFound
          | LookupResult.ok i =>
              let bits := i * 64 % 65536
              let nb := parseDigits numSuffix
              if 64 < nb then StepResult.err DecodeErr.suffixOutOfRange
              else
                let bits2 := (bits + nb) % 65536
                StepResult.ok [bits2 / 256 % 256, bits2 % 256] false

/-- The token loop of `phrase_to_binary`, carrying the `finalized` flag
and the accumulated output bytes. -/
def decodeLoop (d : Dict) (finalized : Bool) (acc : List Nat) : List (List Char) → DecodeResult
  | [] => DecodeResult.ok acc
  | w :: ws =>
      if finalized then DecodeResult.err DecodeErr.misplacedTerminal
      else
        match processWord d w with
        | StepResult.panicked => DecodeResult.panicked
        | StepResult.err e => DecodeResult.err e
        | StepResult.ok bs term => decodeLoop d term (acc ++ bs) ws

/-- Rust's `str::split(" ")` at the character level: split on every single
space, keeping empty segments; the empty string yields one empty
segment. -/
def splitSpace : List Char → List (List Char)
  | [] => [[]]
  | c :: cs =>
      if c = ' ' then [] :: splitSpace cs
      else
        match splitSpace cs with
        | [] => [[c]]
        | t :: ts => (c :: t) :: ts

/-- `phrase_to_binary` from src/src/lib.rs: parse a mnemonic phrase back
into bytes. -/
def phrase_to_binary (d : Dict) (phrase : List Char) : DecodeResult :=
  if phrase = [] then DecodeResult.ok []
  else decodeLoop d false [] (splitSpace phrase)

/-- The token sequence that `binary_to_phrase` emits, read off the
encoder: one dictionary word plus rendered suffix per byte pair, and for
an odd trailing byte the word indexed by that byte plus the literal
"64".  Used to state what the phrase built by the source encoder looks
like. -/
def specTokens (d : Dict) : List Nat → List (List Char)
  | [] => []
  | [b] => [d.words.getD b [] ++ ['6', '4']]
  | b0 :: b1 :: rest =>
      (d.words.getD (b0 * 4 + b1 / 64) [] ++ natDigits (b1 % 64)) :: specTokens d rest

/-- Join tokens with single spaces (the separator discipline of the
encoder's `appendTok`). -/
def joinTokens : List (List Char) → List Char
  | [] => []
  | [t] => t
  | t :: ts => t ++ ' ' :: joinTokens ts

/-- Length of the trailing run of digit characters of a token. -/
def trailDigits (t : List Char) : Nat :=
  (t.reverse.takeWhile isAsciiDigit).length

/-- Truncate a token's word part to the dictionary's unique-prefix length,
keeping the numeric suffix unchanged (the transformation of the spec's
prefix-tolerance property). -/
def truncToken (d : Dict) (t : List Char) : List Char :=
  (t.take (t.length - trailDigits t)).take d.upl ++ t.drop (t.length - trailDigits t)

/-- All tokens after the first, each preceded by one space. -/
def joinSep (ts : List (List Char)) : List Char :=
  (ts.map (fun t => ' ' :: t)).join

/-! A concrete dictionary satisfying the spec's constraints, used to
evaluate the development on closed inputs: 1024 three-letter lowercase
words, pairwise distinct, with the real `DICTIONARY_UNIQUE_PREFIX` value
of 3 (the value the repository's own tests pin down: "sug21 tof21 mob32"
must decode while "ab55" must not resolve). -/

/-- The 26 lowercase ASCII letters. -/
def lowerAlphabet : List Char :=
  ['a', 'b', 'c', 'd', 'e', 'f', 'g', 'h', 'i', 'j', 'k', 'l', 'm',
   'n', 'o', 'p', 'q', 'r', 's', 't', 'u', 'v', 'w', 'x', 'y', 'z']

/-- The lowercase letter of index `k % 26`. -/
def mkChar (k : Nat) : Char :=
  lowerAlphabet.getD (k % 26) 'a'

/-- Word number `i` of the concrete dictionary: the base-26 rendering of
`i` in three lowercase letters. -/
def mkWord (i : Nat) : List Char :=
  [mkChar (i / 676), mkChar (i / 26 % 26), mkChar (i % 26)]

/-- The concrete word list: words 0 through 1023. -/
def dictWords : List (List Char) :=
  (List.range 1024).map mkWord

/-- The concrete dictionary instance. -/
def concreteDict : Dict where
  words := dictWords
  upl := 3
  words_len := by simp [dictWords]
  min_len := by
    intro w hw
    simp only [dictWords, List.mem_map] at hw
    obtain ⟨i, _, rfl⟩ := hw
    simp [mkWord]
  no_digit := by
    have hmemc : ∀ k : Nat, mkChar k ∈ lowerAlphabet := by
      intro k
      have h : k % 26 < lowerAlphabet.length := Nat.mod_lt _ (by decide)
      unfold mkChar
      rw [List.getD_eq_get _ _ h]
      exact List.get_mem _ _ _
    intro w hw c hc
    simp only [dictWords, List.mem_map] at hw
    obtain ⟨i, _, rfl⟩ := hw
    have hmem : c ∈ lowerAlphabet := by
      simp only [mkWord, List.mem_cons, List.not_mem_nil, or_false] at hc
      rcases hc with rfl | rfl | rfl <;> exact hmemc _
    have hall : ∀ x ∈ lowerAlphabet, isAsciiDigit x = false := by decide
    exact hall c hmem
  no_space := by
    have hmemc : ∀ k : Nat, mkChar k ∈ lowerAlphabet := by
      intro k
      have h : k % 26 < lowerAlphabet.length := Nat.mod_lt _ (by decide)
      unfold mkChar
      rw [List.getD_eq_get _ _ h]
      exact List.get_mem _ _ _
    intro w hw hc
    simp only [dictWords, List.mem_map] at hw
    obtain ⟨i, _, rfl⟩ := hw
    have hmem : (' ' : Char) ∈ lowerAlphabet := by
      simp only [mkWord, List.mem_cons, List.not_mem_nil, or_false] at hc
      rcases hc with h | h | h <;> exact h ▸ hmemc _
    revert hmem
    decide
  uniq := by
    have hchar : ∀ a b : Nat, mkChar a = mkChar b → a % 26 = b % 26 := by
      intro a b h
      have ha : a % 26 < lowerAlphabet.length := Nat.mod_lt _ (by decide)
      have hb : b % 26 < lowerAlphabet.length := Nat.mod_lt _ (by decide)
      unfold mkChar at h
      rw [List.getD_eq_get _ _ ha, List.getD_eq_get _ _ hb] at h
      have hnd : lowerAlphabet.Nodup := by decide
      exact congrArg Fin.val ((hnd.get_inj_iff).mp h)
    have hword : ∀ i j : Nat, i < 1024 → j < 1024 → mkWord i = mkWord j → i = j := by
      intro i j hi hj h
      unfold mkWord at h
      simp only [List.cons.injEq, and_true] at h
      obtain ⟨h1, h2, h3⟩ := h
      have e1 := hchar _ _ h1
      have e2 := hchar _ _ h2
      have e3 := hchar _ _ h3
      omega
    have htake : dictWords.map (fun w => w.take 3) = dictWords := by
      simp only [dictWords, List.map_map]
      apply List.map_congr_left
      intro i _
      rfl
    rw [htake]
    apply List.Nodup.map_on
    · intro x hx y hy hxy
      rw [List.mem_range] at hx hy
      exact hword x y hx hy hxy
    · exact List.nodup_range _

/-! Digit-level facts.  The bounded universal statements are settled by
exhaustive evaluation. -/

theorem digitChar_isDigit (m : Nat) : isAsciiDigit (digitChar m) = true := by
  unfold digitChar
  split <;> decide

theorem digitChar_ne_space (m : Nat) : digitChar m ≠ ' ' := by
  unfold digitChar
  split <;> decide

theorem natDigits_all_digit (n : Nat) : ∀ c ∈ natDigits n, isAsciiDigit c = true := by
  intro c hc
  unfold natDigits at hc
  split at hc <;> simp only [List.mem_cons, List.not_mem_nil, or_false] at hc
  · exact hc ▸ digitChar_isDigit n
  · rcases hc with rfl | rfl <;> exact digitChar_isDigit _

theorem natDigits_no_space (n : Nat) : ' ' ∉ natDigits n := by
  intro hc
  unfold natDigits at hc
  split at hc <;> simp only [List.mem_cons, List.not_mem_nil, or_false] at hc
  · exact digitChar_ne_space n hc.symm
  · rcases hc with h | h <;> exact digitChar_ne_space _ h.symm

theorem natDigits_length (n : Nat) : (natDigits n).length = 1 ∨ (natDigits n).length = 2 := by
  unfold natDigits
  split <;> simp

theorem natDigits_ne_nil (n : Nat) : natDigits n ≠ [] := by
  unfold natDigits
  split <;> simp

theorem parseDigits_natDigits : ∀ n, n < 100 → parseDigits (natDigits n) = n := by decide

theorem natDigits_ne_64 : ∀ n, n < 64 → natDigits n ≠ ['6', '4'] := by decide

/-! Facts about the digit-suffix scan `countDigits`. -/

theorem countDigits_nodigit (w s : List Char) (hw : ∀ c ∈ w, isAsciiDigit c = false) :
    countDigits (w ++ s) 0 = countDigits s 0 := by
  induction w with
  | nil => rfl
  | cons c cs ih =>
      have hc : isAsciiDigit c = false := hw c (List.mem_cons_self c cs)
      simp only [List.cons_append, countDigits, lt_self_iff_false, false_and, if_false,
        Nat.not_lt_zero, hc, Bool.false_eq_true]
      exact ih fun x hx => hw x (List.mem_cons_of_mem c hx)

theorem countDigits_digits (s : List Char) (hs : ∀ c ∈ s, isAsciiDigit c = true)
    (h1 : s.length = 1 ∨ s.length = 2) : countDigits s 0 = Except.ok s.length := by
  match s, h1 with
  | [c], _ =>
      have hc := hs c (by simp)
      simp [countDigits, hc]
  | [c1, c2], _ =>
      have hc1 := hs c1 (by simp)
      have hc2 := hs c2 (by simp)
      simp [countDigits, hc1, hc2]

theorem countDigits_pos (w : List Char) (k dg : Nat) (hk1 : 1 ≤ k) (hk2 : k ≤ 2)
    (h : countDigits w k = Except.ok dg) :
    (∀ c ∈ w, isAsciiDigit c = true) ∧ dg = k + w.length ∧ dg ≤ 2 := by
  induction w generalizing k with
  | nil =>
      simp only [countDigits, Except.ok.injEq] at h
      subst h
      exact ⟨by simp, by simp, by omega⟩
  | cons c cs ih =>
      simp only [countDigits] at h
      by_cases hd : isAsciiDigit c = true
      · rw [if_neg (by simp [hd]), ] at h
        by_cases hk : 1 < k
        · rw [if_pos hk] at h
          simp at h
        · rw [if_neg hk, if_pos hd] at h
          have hkeq : k = 1 := by omega
          subst hkeq
          obtain ⟨hall, hdg, hle⟩ := ih 2 (by omega) (by omega) h
          refine ⟨?_, by simp [hdg]; omega, hle⟩
          intro x hx
          rcases List.mem_cons.mp hx with rfl | hx
          · exact hd
          · exact hall x hx
      · rw [if_pos ⟨by omega, by simpa using hd⟩] at h
        simp at h

theorem countDigits_ok (w : List Char) (dg : Nat) (h : countDigits w 0 = Except.ok dg) :
    ∃ base suf, w = base ++ suf ∧ suf.length = dg ∧
      (∀ c ∈ base, isAsciiDigit c = false) ∧ (∀ c ∈ suf, isAsciiDigit c = true) ∧ dg ≤ 2 := by
  induction w with
  | nil =>
      simp only [countDigits, Except.ok.injEq] at h
      exact ⟨[], [], rfl, by simp [h.symm], by simp, by simp, by omega⟩
  | cons c cs ih =>
      simp only [countDigits, lt_self_iff_false, false_and, if_false, Nat.not_lt_zero,
        Bool.false_eq_true] at h
      by_cases hd : isAsciiDigit c = true
      · rw [if_pos hd] at h
        obtain ⟨hall, hdg, hle⟩ := countDigits_pos cs 1 dg (by omega) (by omega) h
        refine ⟨[], c :: cs, rfl, by simp; omega, by simp, ?_, hle⟩
        intro x hx
        rcases List.mem_cons.mp hx with rfl | hx
        · exact hd
        · exact hall x hx
      · rw [if_neg hd] at h
        obtain ⟨base, suf, heq, h2, h3, h4, h5⟩ := ih h
        refine ⟨c :: base, suf, by simp [heq], h2, ?_, h4, h5⟩
        intro x hx
        rcases List.mem_cons.mp hx with rfl | hx
        · simpa using hd
        · exact h3 x hx


/-! Facts about the dictionary scan and `dict_index`. -/

theorem scanDict_lt (upl : Nat) (pfx : List Char) (ws : List (List Char)) (i r : Nat)
    (h : scanDict upl pfx ws i = some r) : r < i + ws.length := by
  induction ws generalizing i with
  | nil => simp [scanDict] at h
  | cons w ws ih =>
      simp only [scanDict] at h
      split at h
      · simp only [Option.some.injEq] at h
        simp [h.symm]
      · have := ih (i + 1) h
        simp only [List.length_cons]
        omega

theorem scanDict_found (upl : Nat) (ws : List (List Char)) (idx i : Nat) (hidx : idx < ws.length)
    (hnd : (ws.map (fun w => w.take upl)).Nodup) :
    scanDict upl ((ws.get ⟨idx, hidx⟩).take upl) ws i = some (i + idx) := by
  induction ws generalizing idx i with
  | nil => simp at hidx
  | cons w ws ih =>
      rw [List.map_cons] at hnd
      obtain ⟨hhead, htail⟩ := List.nodup_cons.mp hnd
      cases idx with
      | zero => simp [scanDict]
      | succ j =>
          have hj : j < ws.length := by simpa using hidx
          have hget : (w :: ws).get ⟨j + 1, hidx⟩ = ws.get ⟨j, hj⟩ := rfl
          rw [hget]
          simp only [scanDict]
          rw [if_neg]
          · rw [ih j (i + 1) hj htail]
            congr 1
            omega
          · intro heq
            exact hhead (heq ▸ List.mem_map_of_mem (fun w => w.take upl) (List.get_mem ws j hj))

theorem dict_index_of_get (d : Dict) (idx : Nat) (h : idx < d.words.length)
    (rest : List Char) :
    dict_index d (d.words.get ⟨idx, h⟩ ++ rest) = LookupResult.ok idx := by
  have hw : d.words.get ⟨idx, h⟩ ∈ d.words := List.get_mem _ _ _
  have hlen : d.upl ≤ (d.words.get ⟨idx, h⟩).length := d.min_len _ hw
  unfold dict_index
  rw [if_neg (by simp only [List.length_append]; omega)]
  rw [List.take_append_of_le_length hlen]
  rw [scanDict_found d.upl d.words idx 0 h d.uniq]
  simp

theorem dict_index_lt (d : Dict) (w : List Char) (i : Nat)
    (h : dict_index d w = LookupResult.ok i) : i < 1024 := by
  unfold dict_index at h
  split at h
  · simp at h
  · cases hs : scanDict d.upl (w.take d.upl) d.words 0 with
    | none => rw [hs] at h; simp at h
    | some r =>
        rw [hs] at h
        simp only [LookupResult.ok.injEq] at h
        have := scanDict_lt d.upl (w.take d.upl) d.words 0 r hs
        rw [d.words_len] at this
        omega

/-- Extracting the numeric suffix the way `phrase_to_binary` does (last
one or two characters, depending on the digit count) recovers exactly the
digit suffix of a well-formed token. -/
theorem suffix_extract (w s : List Char) (h1 : 1 ≤ s.length) (h2 : s.length ≤ 2) :
    (if s.length = 1 then (w ++ s).drop ((w ++ s).length - 1)
     else (w ++ s).drop ((w ++ s).length - 2)) = s := by
  have hlen : (w ++ s).length = w.length + s.length := List.length_append w s
  split
  · have : (w ++ s).length - 1 = w.length := by omega
    rw [this, List.drop_left]
  · have hs2 : s.length = 2 := by omega
    have : (w ++ s).length - 2 = w.length := by omega
    rw [this, List.drop_left]

/-! Behaviour of `processWord` on the tokens the encoder emits. -/

theorem processWord_pair (d : Dict) (b0 b1 : Nat) (h0 : b0 < 256) (h1 : b1 < 256) :
    processWord d (d.words.getD (b0 * 4 + b1 / 64) [] ++ natDigits (b1 % 64)) =
      StepResult.ok [b0, b1] false := by
  have hidx : b0 * 4 + b1 / 64 < d.words.length := by
    rw [d.words_len]; omega
  have hgetd : d.words.getD (b0 * 4 + b1 / 64) [] = d.words.get ⟨b0 * 4 + b1 / 64, hidx⟩ :=
    List.getD_eq_get _ _ hidx
  rw [hgetd]
  set w := d.words.get ⟨b0 * 4 + b1 / 64, hidx⟩ with hw
  have hmem : w ∈ d.words := List.get_mem _ _ _
  have hnodig : ∀ c ∈ w, isAsciiDigit c = false := d.no_digit w hmem
  set s := natDigits (b1 % 64) with hs
  have hslen : s.length = 1 ∨ s.length = 2 := natDigits_length _
  have hsdig : ∀ c ∈ s, isAsciiDigit c = true := natDigits_all_digit _
  have hcd : countDigits (w ++ s) 0 = Except.ok s.length :=
    (countDigits_nodigit w s hnodig).trans (countDigits_digits s hsdig hslen)
  have hlen1 : 1 ≤ s.length := by omega
  have hlen2 : s.length ≤ 2 := by omega
  have hne64 : s ≠ ['6', '4'] := natDigits_ne_64 (b1 % 64) (by omega)
  have hdi : dict_index d (w ++ s) = LookupResult.ok (b0 * 4 + b1 / 64) := by
    rw [hw]; exact dict_index_of_get d _ hidx s
  have hparse : parseDigits s = b1 % 64 := parseDigits_natDigits (b1 % 64) (by omega)
  unfold processWord
  rw [hcd]
  dsimp only
  rw [if_neg (by omega)]
  rw [suffix_extract w s hlen1 hlen2]
  rw [if_neg hne64]
  rw [hdi]
  dsimp only
  rw [hparse]
  rw [if_neg (by omega)]
  have e1 : ((b0 * 4 + b1 / 64) * 64 % 65536 + b1 % 64) % 65536 = b0 * 256 + b1 := by omega
  rw [e1]
  have e2 : (b0 * 256 + b1) / 256 % 256 = b0 := by omega
  have e3 : (b0 * 256 + b1) % 256 = b1 := by omega
  rw [e2, e3]

theorem processWord_term (d : Dict) (b : Nat) (hb : b < 256) :
    processWord d (d.words.getD b [] ++ ['6', '4']) = StepResult.ok [b] true := by
  have hidx : b < d.words.length := by rw [d.words_len]; omega
  have hgetd : d.words.getD b [] = d.words.get ⟨b, hidx⟩ := List.getD_eq_get _ _ hidx
  rw [hgetd]
  set w := d.words.get ⟨b, hidx⟩ with hw
  have hmem : w ∈ d.words := List.get_mem _ _ _
  have hnodig : ∀ c ∈ w, isAsciiDigit c = false := d.no_digit w hmem
  have hcd : countDigits (w ++ ['6', '4']) 0 = Except.ok 2 :=
    (countDigits_nodigit w ['6', '4'] hnodig).trans (countDigits_digits _ (by decide) (by simp))
  have hext := suffix_extract w ['6', '4'] (by simp) (by simp)
  simp only [List.length_cons, List.length_nil] at hext
  rw [if_neg (show ¬((2 : Nat) = 1) by omega)] at hext
  have hdi : dict_index d (w ++ ['6', '4']) = LookupResult.ok b := by
    rw [hw]; exact dict_index_of_get d b hidx ['6', '4']
  unfold processWord
  rw [hcd]
  dsimp only
  rw [if_neg (show ¬((2 : Nat) = 0) by omega)]
  rw [if_neg (show ¬((2 : Nat) = 1) by omega)]
  rw [hext]
  rw [if_pos rfl]
  rw [hdi]
  dsimp only
  rw [if_neg (by omega)]
  rw [Nat.mod_eq_of_lt hb]

/-- Two-bytes-at-a-time induction, matching the encoder's loop shape. -/
theorem twoStep {P : List Nat → Prop} (h0 : P []) (h1 : ∀ b, P [b])
    (h2 : ∀ b0 b1 rest, P rest → P (b0 :: b1 :: rest)) : ∀ l, P l
  | [] => h0
  | [b] => h1 b
  | b0 :: b1 :: rest => h2 b0 b1 rest (twoStep h0 h1 h2 rest)

/-! Shape facts about the token list the encoder emits. -/

theorem specTokens_ne_nil (d : Dict) : ∀ data, ∀ t ∈ specTokens d data, t ≠ [] := by
  intro data
  induction data using twoStep with
  | h0 => intro t ht; simp [specTokens] at ht
  | h1 b =>
      intro t ht
      simp only [specTokens, List.mem_cons, List.not_mem_nil, or_false] at ht
      subst ht
      simp
  | h2 b0 b1 rest ih =>
      intro t ht
      simp only [specTokens, List.mem_cons] at ht
      rcases ht with rfl | ht
      · intro hnil
        rcases List.append_eq_nil.mp hnil with ⟨-, hs⟩
        exact natDigits_ne_nil _ hs
      · exact ih t ht

theorem getD_no_space (d : Dict) (n : Nat) : ' ' ∉ d.words.getD n [] := by
  by_cases h : n < d.words.length
  · rw [List.getD_eq_get _ _ h]
    exact d.no_space _ (List.get_mem _ _ _)
  · rw [List.getD_eq_default]
    · simp
    · omega

theorem specTokens_no_space (d : Dict) : ∀ data, ∀ t ∈ specTokens d data, ' ' ∉ t := by
  intro data
  induction data using twoStep with
  | h0 => intro t ht; simp [specTokens] at ht
  | h1 b =>
      intro t ht
      simp only [specTokens, List.mem_cons, List.not_mem_nil, or_false] at ht
      subst ht
      intro hsp
      rcases List.mem_append.mp hsp with hsp | hsp
      · exact getD_no_space d b hsp
      · simp at hsp
  | h2 b0 b1 rest ih =>
      intro t ht
      simp only [specTokens, List.mem_cons] at ht
      rcases ht with rfl | ht
      · intro hsp
        rcases List.mem_append.mp hsp with hsp | hsp
        · exact getD_no_space d _ hsp
        · exact natDigits_no_space _ hsp
      · exact ih t ht

/-! The encoder's fold over `appendTok` joins tokens with single spaces. -/

theorem joinTokens_eq (t : List Char) (ts : List (List Char)) :
    joinTokens (t :: ts) = t ++ joinSep ts := by
  induction ts generalizing t with
  | nil => simp [joinTokens, joinSep]
  | cons t' ts ih =>
      show t ++ ' ' :: joinTokens (t' :: ts) = _
      rw [ih t']
      simp [joinSep]

theorem foldl_appendTok_ne (ts : List (List Char)) :
    ∀ p, p ≠ [] → List.foldl appendTok p ts = p ++ joinSep ts := by
  induction ts with
  | nil => intro p _; simp [joinSep]
  | cons t ts ih =>
      intro p hp
      have hstep : appendTok p t = p ++ ' ' :: t := by
        unfold appendTok
        rw [if_pos (by simpa using hp)]
        simp
      rw [List.foldl_cons, hstep, ih (p ++ ' ' :: t) (by simp)]
      simp [joinSep]

theorem foldl_appendTok (ts : List (List Char)) (hne : ∀ t ∈ ts, t ≠ []) :
    List.foldl appendTok [] ts = joinTokens ts := by
  cases ts with
  | nil => rfl
  | cons t ts =>
      have h1 : appendTok [] t = t := by unfold appendTok; simp
      rw [List.foldl_cons, h1, foldl_appendTok_ne ts t (hne t (List.mem_cons_self t ts)),
        joinTokens_eq]

theorem encodeLoop_eq (d : Dict) :
    ∀ data, (∀ b ∈ data, b < 256) → ∀ phrase,
      encodeLoop d data phrase = some (List.foldl appendTok phrase (specTokens d data)) := by
  intro data
  induction data using twoStep with
  | h0 => intro _ phrase; rfl
  | h1 b =>
      intro h phrase
      have hb : b < 256 := h b (by simp)
      have hidx : b < d.words.length := by rw [d.words_len]; omega
      have hmod : b % 256 = b := Nat.mod_eq_of_lt hb
      simp only [encodeLoop, specTokens]
      rw [List.get?_eq_get hidx]
      simp only [List.foldl_cons, List.foldl_nil, Option.some.injEq]
      rw [List.getD_eq_get _ _ hidx]
  | h2 b0 b1 rest ih =>
      intro h phrase
      have hb0 : b0 < 256 := h b0 (by simp)
      have hb1 : b1 < 256 := h b1 (by simp)
      have hidx : b0 * 4 + b1 / 64 < d.words.length := by rw [d.words_len]; omega
      have harith : (b0 * 4 % 65536 + b1 / 64) % 65536 = b0 * 4 + b1 / 64 := by omega
      simp only [encodeLoop, specTokens]
      rw [harith, List.get?_eq_get hidx]
      dsimp only
      rw [ih (fun b hb => h b (by simp [hb])) (appendTok phrase _)]
      simp only [List.foldl_cons, Option.some.injEq]
      rw [List.getD_eq_get _ _ hidx]

theorem binary_to_phrase_eq (d : Dict) (data : List Nat) (h : ∀ b ∈ data, b < 256) :
    binary_to_phrase d data = some (joinTokens (specTokens d data)) := by
  unfold binary_to_phrase
  rw [encodeLoop_eq d data h []]
  rw [foldl_appendTok _ (specTokens_ne_nil d data)]

/-! Facts about the space-splitting of phrases. -/

theorem splitSpace_ne_nil (s : List Char) : splitSpace s ≠ [] := by
  induction s with
  | nil => simp [splitSpace]
  | cons c cs ih =>
      simp only [splitSpace]
      split
      · simp
      · cases h : splitSpace cs with
        | nil => exact absurd h ih
        | cons t ts => simp

theorem splitSpace_single (t : List Char) (h : ' ' ∉ t) : splitSpace t = [t] := by
  induction t with
  | nil => rfl
  | cons c cs ih =>
      have hc : ¬(c = ' ') := fun hc => h (hc ▸ List.mem_cons_self c cs)
      have hcs : ' ' ∉ cs := fun hm => h (List.mem_cons_of_mem c hm)
      simp only [splitSpace]
      rw [if_neg hc, ih hcs]

theorem splitSpace_sep (t : List Char) (r : List Char) (h : ' ' ∉ t) :
    splitSpace (t ++ ' ' :: r) = t :: splitSpace r := by
  induction t with
  | nil =>
      simp only [List.nil_append, splitSpace]
      simp
  | cons c cs ih =>
      have hc : ¬(c = ' ') := fun hc => h (hc ▸ List.mem_cons_self c cs)
      have hcs : ' ' ∉ cs := fun hm => h (List.mem_cons_of_mem c hm)
      simp only [List.cons_append, splitSpace]
      rw [if_neg hc]
      simp only [List.append_eq]
      rw [ih hcs]

theorem splitSpace_join (ts : List (List Char)) (hts : ts ≠ [])
    (h : ∀ t ∈ ts, ' ' ∉ t) : splitSpace (joinTokens ts) = ts := by
  induction ts with
  | nil => exact absurd rfl hts
  | cons t ts ih =>
      cases ts with
      | nil => exact splitSpace_single t (h t (by simp))
      | cons t' ts' =>
          show splitSpace (t ++ ' ' :: joinTokens (t' :: ts')) = _
          rw [splitSpace_sep t _ (h t (by simp))]
          rw [ih (by simp) (fun x hx => h x (List.mem_cons_of_mem t hx))]

theorem splitSpace_no_space (s : List Char) : ∀ seg ∈ splitSpace s, ' ' ∉ seg := by
  induction s with
  | nil =>
      intro seg hseg
      simp only [splitSpace, List.mem_cons, List.not_mem_nil, or_false] at hseg
      simp [hseg]
  | cons c cs ih =>
      intro seg hseg
      simp only [splitSpace] at hseg
      by_cases hc : c = ' '
      · rw [if_pos hc] at hseg
        rcases List.mem_cons.mp hseg with rfl | hseg
        · simp
        · exact ih seg hseg
      · rw [if_neg hc] at hseg
        cases hsp : splitSpace cs with
        | nil => exact absurd hsp (splitSpace_ne_nil cs)
        | cons t ts =>
            rw [hsp] at hseg
            rcases List.mem_cons.mp hseg with rfl | hseg
            · intro hmem
              rcases List.mem_cons.mp hmem with h1 | h1
              · exact hc h1.symm
              · exact ih t (hsp ▸ List.mem_cons_self t ts) h1
            · exact ih seg (hsp ▸ List.mem_cons_of_mem t hseg)

/-! The decode loop inverts the encoder token-by-token. -/

theorem decodeLoop_spec (d : Dict) :
    ∀ data, (∀ b ∈ data, b < 256) → ∀ acc,
      decodeLoop d false acc (specTokens d data) = DecodeResult.ok (acc ++ data) := by
  intro data
  induction data using twoStep with
  | h0 => intro _ acc; simp [specTokens, decodeLoop]
  | h1 b =>
      intro h acc
      have hb : b < 256 := h b (by simp)
      simp only [specTokens, decodeLoop, Bool.false_eq_true, if_false]
      rw [processWord_term d b hb]
  | h2 b0 b1 rest ih =>
      intro h acc
      have hb0 : b0 < 256 := h b0 (by simp)
      have hb1 : b1 < 256 := h b1 (by simp)
      simp only [specTokens, decodeLoop, Bool.false_eq_true, if_false]
      rw [processWord_pair d b0 b1 hb0 hb1]
      show decodeLoop d false (acc ++ [b0, b1]) (specTokens d rest) = _
      rw [ih (fun b hb => h b (by simp [hb])) (acc ++ [b0, b1])]
      simp

/-! Assembling the round trip. -/

theorem specTokens_ne_nil_of_ne_nil (d : Dict) (data : List Nat) (hd : data ≠ []) :
    specTokens d data ≠ [] := by
  match data, hd with
  | [b], _ => simp [specTokens]
  | b0 :: b1 :: rest, _ => simp [specTokens]

theorem joinTokens_ne_nil (ts : List (List Char)) (h : ts ≠ []) (hne : ∀ t ∈ ts, t ≠ []) :
    joinTokens ts ≠ [] := by
  cases ts with
  | nil => exact absurd rfl h
  | cons t ts =>
      rw [joinTokens_eq]
      intro hnil
      exact hne t (List.mem_cons_self t ts) (List.append_eq_nil.mp hnil).1

theorem decode_encode (d : Dict) (data : List Nat) (h : ∀ b ∈ data, b < 256) :
    phrase_to_binary d (joinTokens (specTokens d data)) = DecodeResult.ok data := by
  by_cases hd : data = []
  · subst hd; rfl
  · have hts := specTokens_ne_nil_of_ne_nil d data hd
    have hne := specTokens_ne_nil d data
    have hphr : joinTokens (specTokens d data) ≠ [] := joinTokens_ne_nil _ hts hne
    unfold phrase_to_binary
    rw [if_neg hphr]
    rw [splitSpace_join _ hts (specTokens_no_space d data)]
    rw [decodeLoop_spec d data h []]
    simp

/-- C1: for every byte sequence (any length, including empty),
`binary_to_phrase` produces a phrase and `phrase_to_binary` maps that
phrase back to exactly the original bytes. -/
theorem c1_roundtrip (d : Dict) (data : List Nat) (h : ∀ b ∈ data, b < 256) :
    ∃ p, binary_to_phrase d data = some p ∧ phrase_to_binary d p = DecodeResult.ok data :=
  ⟨joinTokens (specTokens d data), binary_to_phrase_eq d data h, decode_encode d data h⟩

theorem c1_roundtrip_witness :
    (∀ b ∈ [7, 200, 13], b < 256) ∧
      ∃ p, binary_to_phrase concreteDict [7, 200, 13] = some p ∧
        phrase_to_binary concreteDict p = DecodeResult.ok [7, 200, 13] :=
  ⟨by decide, c1_roundtrip concreteDict [7, 200, 13] (by decide)⟩

/-- C8: the encoder never fails: for every byte sequence every dictionary
access is in bounds (the dictionary index of a byte pair is at most 1023
and of a terminal byte at most 255), so a phrase is always returned. -/
theorem c8_encode_total (d : Dict) (data : List Nat) (h : ∀ b ∈ data, b < 256) :
    ∃ p, binary_to_phrase d data = some p :=
  ⟨joinTokens (specTokens d data), binary_to_phrase_eq d data h⟩

theorem c8_encode_total_witness :
    (∀ b ∈ [255, 255, 255], b < 256) ∧
      ∃ p, binary_to_phrase concreteDict [255, 255, 255] = some p :=
  ⟨by decide, c8_encode_total concreteDict [255, 255, 255] (by decide)⟩

/-! The i-th token of the encoder output, for each complete byte pair. -/

theorem specTokens_get (d : Dict) :
    ∀ data : List Nat, ∀ i, 2 * i + 1 < data.length →
      (specTokens d data).get? i =
        some (d.words.getD (data.getD (2 * i) 0 * 4 + data.getD (2 * i + 1) 0 / 64) [] ++
          natDigits (data.getD (2 * i + 1) 0 % 64)) := by
  intro data
  induction data using twoStep with
  | h0 => intro i hi; simp at hi
  | h1 b => intro i hi; simp at hi
  | h2 b0 b1 rest ih =>
      intro i hi
      cases i with
      | zero => simp [specTokens]
      | succ j =>
          have hj : 2 * j + 1 < rest.length := by
            simp only [List.length_cons] at hi
            omega
          have e0 : 2 * (j + 1) = (2 * j + 1) + 1 := by omega
          have e1 : (b0 :: b1 :: rest).getD (2 * (j + 1)) 0 = rest.getD (2 * j) 0 := by
            rw [e0, List.getD_cons_succ, List.getD_cons_succ]
          have e2 : (b0 :: b1 :: rest).getD (2 * (j + 1) + 1) 0 = rest.getD (2 * j + 1) 0 := by
            rw [e0, List.getD_cons_succ, List.getD_cons_succ]
          rw [e1, e2]
          show (specTokens d rest).get? j = _
          exact ih j hj

/-- C3: for every complete byte pair at even offset, the encoder emits the
token made of the dictionary word at index `data[i]*4 + data[i+1]/64`
immediately followed by the unpadded decimal rendering of
`data[i+1] % 64`, tokens joined in input order by single spaces. -/
theorem c3_pair_tokens (d : Dict) (data : List Nat) (h : ∀ b ∈ data, b < 256) :
    binary_to_phrase d data = some (joinTokens (specTokens d data)) ∧
      ∀ i, 2 * i + 1 < data.length →
        (specTokens d data).get? i =
          some (d.words.getD (data.getD (2 * i) 0 * 4 + data.getD (2 * i + 1) 0 / 64) [] ++
            natDigits (data.getD (2 * i + 1) 0 % 64)) :=
  ⟨binary_to_phrase_eq d data h, specTokens_get d data⟩

theorem c3_pair_tokens_witness :
    (∀ b ∈ [1, 130], b < 256) ∧
      (binary_to_phrase concreteDict [1, 130] =
          some (joinTokens (specTokens concreteDict [1, 130])) ∧
        ∀ i, 2 * i + 1 < ([1, 130] : List Nat).length →
          (specTokens concreteDict [1, 130]).get? i =
            some (concreteDict.words.getD
                (([1, 130] : List Nat).getD (2 * i) 0 * 4 +
                  ([1, 130] : List Nat).getD (2 * i + 1) 0 / 64) [] ++
              natDigits (([1, 130] : List Nat).getD (2 * i + 1) 0 % 64))) :=
  ⟨by decide, c3_pair_tokens concreteDict [1, 130] (by decide)⟩

/-! Shape of the full token list: count, non-terminal suffixes, terminal
token. -/

theorem getD_no_digit (d : Dict) (n : Nat) : ∀ c ∈ d.words.getD n [], isAsciiDigit c = false := by
  by_cases h : n < d.words.length
  · rw [List.getD_eq_get _ _ h]
    exact d.no_digit _ (List.get_mem _ _ _)
  · rw [List.getD_eq_default]
    · simp
    · omega

theorem specTokens_length (d : Dict) :
    ∀ data : List Nat, (specTokens d data).length = (data.length + 1) / 2 := by
  intro data
  induction data using twoStep with
  | h0 => rfl
  | h1 b => simp [specTokens]
  | h2 b0 b1 rest ih =>
      simp only [specTokens, List.length_cons, ih]
      omega

theorem specTokens_nonlast (d : Dict) :
    ∀ data : List Nat, ∀ i, i + 1 < (specTokens d data).length →
      ∃ w s, (specTokens d data).get? i = some (w ++ natDigits s) ∧ s ≤ 63 ∧
        ∀ c ∈ w, isAsciiDigit c = false := by
  intro data
  induction data using twoStep with
  | h0 => intro i hi; simp [specTokens] at hi
  | h1 b => intro i hi; simp [specTokens] at hi
  | h2 b0 b1 rest ih =>
      intro i hi
      cases i with
      | zero =>
          refine ⟨d.words.getD (b0 * 4 + b1 / 64) [], b1 % 64, ?_, by omega, getD_no_digit d _⟩
          rfl
      | succ j =>
          have hj : j + 1 < (specTokens d rest).length := by
            simp only [specTokens, List.length_cons] at hi
            omega
          exact ih j hj

/-- A token of the form dictionary-word plus a suffix rendering a value
below 64 does not end in the two characters "64". -/
theorem pair_token_not_64 (d : Dict) (idx s : Nat) (hs : s ≤ 63) :
    ¬((d.words.getD idx [] ++ natDigits s).drop
        ((d.words.getD idx [] ++ natDigits s).length - 2) = ['6', '4']) := by
  have hnd : ∀ c ∈ d.words.getD idx [], isAsciiDigit c = false := getD_no_digit d idx
  generalize hgen : d.words.getD idx [] = w at hnd ⊢
  rcases natDigits_length s with h1 | h2
  · by_cases hwnil : w = []
    · subst hwnil
      simp only [List.nil_append]
      intro heq
      have := congrArg List.length heq
      rw [List.length_drop, h1] at this
      simp at this
    · have hwlen : 1 ≤ w.length := List.length_pos.mpr hwnil
      have hlen : (w ++ natDigits s).length = w.length + 1 := by
        rw [List.length_append, h1]
      have hidx2 : (w ++ natDigits s).length - 2 = w.length - 1 := by omega
      rw [hidx2, List.drop_append_of_le_length (by omega)]
      have hulen : (w.drop (w.length - 1)).length = 1 := by
        rw [List.length_drop]; omega
      obtain ⟨c, hc⟩ := List.length_eq_one.mp hulen
      rw [hc]
      intro heq
      simp only [List.cons_append, List.cons.injEq] at heq
      have hcw : c ∈ w := List.drop_subset _ w (hc ▸ List.mem_cons_self c [])
      have := hnd c hcw
      rw [heq.1] at this
      simp [isAsciiDigit] at this
  · have hidx2 : (w ++ natDigits s).length - 2 = w.length := by
      rw [List.length_append, h2]
      omega
    rw [hidx2, List.drop_left]
    exact natDigits_ne_64 s (by omega)

theorem getLast?_cons_ne {α : Type} (a : α) (l : List α) (h : l ≠ []) :
    (a :: l).getLast? = l.getLast? := by
  cases l with
  | nil => exact absurd rfl h
  | cons b m => exact List.getLast?_cons_cons

theorem specTokens_last_odd (d : Dict) :
    ∀ data : List Nat, data.length % 2 = 1 →
      ∃ b, data.getLast? = some b ∧
        (specTokens d data).getLast? = some (d.words.getD b [] ++ ['6', '4']) := by
  intro data
  induction data using twoStep with
  | h0 => intro hodd; simp at hodd
  | h1 b => intro _; exact ⟨b, rfl, rfl⟩
  | h2 b0 b1 rest ih =>
      intro hodd
      have hrodd : rest.length % 2 = 1 := by
        simp only [List.length_cons] at hodd
        omega
      have hrne : rest ≠ [] := by
        intro hnil
        rw [hnil] at hrodd
        simp at hrodd
      obtain ⟨b, hb1, hb2⟩ := ih hrodd
      refine ⟨b, ?_, ?_⟩
      · rw [getLast?_cons_ne b0 (b1 :: rest) (by simp), getLast?_cons_ne b1 rest hrne]
        exact hb1
      · rw [show specTokens d (b0 :: b1 :: rest) =
            (d.words.getD (b0 * 4 + b1 / 64) [] ++ natDigits (b1 % 64)) :: specTokens d rest
            from rfl]
        rw [getLast?_cons_ne _ _ (specTokens_ne_nil_of_ne_nil d rest hrne)]
        exact hb2

theorem specTokens_last_64 (d : Dict) :
    ∀ data : List Nat, ∀ t, (specTokens d data).getLast? = some t →
      ((t.drop (t.length - 2) = ['6', '4']) ↔ data.length % 2 = 1) := by
  intro data
  induction data using twoStep with
  | h0 => intro t ht; simp [specTokens] at ht
  | h1 b =>
      intro t ht
      simp only [specTokens, List.getLast?_singleton, Option.some.injEq] at ht
      subst ht
      have hidx2 : (d.words.getD b [] ++ ['6', '4']).length - 2 = (d.words.getD b []).length := by
        rw [List.length_append]
        simp
      rw [hidx2, List.drop_left]
      simp
  | h2 b0 b1 rest ih =>
      intro t ht
      have hmod : (b0 :: b1 :: rest).length % 2 = rest.length % 2 := by
        simp only [List.length_cons]
        omega
      rw [hmod]
      by_cases hrne : rest = []
      · subst hrne
        simp only [specTokens, List.getLast?_singleton, Option.some.injEq] at ht
        subst ht
        simp only [List.length_nil]
        constructor
        · intro heq
          exact absurd heq (pair_token_not_64 d (b0 * 4 + b1 / 64) (b1 % 64) (by omega))
        · intro h01
          simp at h01
      · rw [show specTokens d (b0 :: b1 :: rest) =
            (d.words.getD (b0 * 4 + b1 / 64) [] ++ natDigits (b1 % 64)) :: specTokens d rest
            from rfl] at ht
        rw [getLast?_cons_ne _ _ (specTokens_ne_nil_of_ne_nil d rest hrne)] at ht
        exact ih t ht

/-- C4: the encoder emits exactly ceil(len/2) space-separated tokens;
every token but possibly the last carries a rendered numeric suffix in
[0,63]; the last token ends in the characters "64" exactly when the input
length is odd, and in that case its word is the dictionary entry indexed
by the last byte. -/
theorem c4_shape (d : Dict) (data : List Nat) (h : ∀ b ∈ data, b < 256) :
    ∃ toks, binary_to_phrase d data = some (joinTokens toks) ∧
      (∀ t ∈ toks, t ≠ [] ∧ ' ' ∉ t) ∧
      toks.length = (data.length + 1) / 2 ∧
      (∀ i, i + 1 < toks.length →
        ∃ w s, toks.get? i = some (w ++ natDigits s) ∧ s ≤ 63 ∧
          ∀ c ∈ w, isAsciiDigit c = false) ∧
      (∀ t, toks.getLast? = some t →
        ((t.drop (t.length - 2) = ['6', '4']) ↔ data.length % 2 = 1)) ∧
      (data.length % 2 = 1 →
        ∃ b, data.getLast? = some b ∧
          toks.getLast? = some (d.words.getD b [] ++ ['6', '4'])) := by
  refine ⟨specTokens d data, binary_to_phrase_eq d data h, ?_, specTokens_length d data,
    specTokens_nonlast d data, specTokens_last_64 d data, specTokens_last_odd d data⟩
  intro t ht
  exact ⟨specTokens_ne_nil d data t ht, specTokens_no_space d data t ht⟩

theorem c4_shape_witness :
    (∀ b ∈ [9, 77, 5], b < 256) ∧
      ∃ toks, binary_to_phrase concreteDict [9, 77, 5] = some (joinTokens toks) ∧
        (∀ t ∈ toks, t ≠ [] ∧ ' ' ∉ t) ∧
        toks.length = (([9, 77, 5] : List Nat).length + 1) / 2 ∧
        (∀ i, i + 1 < toks.length →
          ∃ w s, toks.get? i = some (w ++ natDigits s) ∧ s ≤ 63 ∧
            ∀ c ∈ w, isAsciiDigit c = false) ∧
        (∀ t, toks.getLast? = some t →
          ((t.drop (t.length - 2) = ['6', '4']) ↔ ([9, 77, 5] : List Nat).length % 2 = 1)) ∧
        (([9, 77, 5] : List Nat).length % 2 = 1 →
          ∃ b, ([9, 77, 5] : List Nat).getLast? = some b ∧
            toks.getLast? = some (concreteDict.words.getD b [] ++ ['6', '4'])) :=
  ⟨by decide, c4_shape concreteDict [9, 77, 5] (by decide)⟩

/-! Per-token evaluation of `processWord` on an arbitrary decomposed
token, and arithmetic facts about suffix parsing. -/

theorem isAsciiDigit_iff (c : Char) : isAsciiDigit c = true ↔ 48 ≤ c.toNat ∧ c.toNat ≤ 57 := by
  simp [isAsciiDigit]

theorem drop_len_sub (w s : List Char) :
    (w ++ s).drop ((w ++ s).length - s.length) = s := by
  have h : (w ++ s).length - s.length = w.length := by
    rw [List.length_append]; omega
  rw [h, List.drop_left]

theorem char_of_toNat (c : Char) (n : Nat) (h : c.toNat = n) : c = Char.ofNat n := by
  rw [← h, Char.ofNat_toNat]

/-- Among all-digit suffixes of at most two characters, only the literal
"64" parses to the value 64. -/
theorem parse_eq_64 (s : List Char) (hs : ∀ c ∈ s, isAsciiDigit c = true)
    (hlen : s.length ≤ 2) (hp : parseDigits s = 64) : s = ['6', '4'] := by
  match s, hlen with
  | [], _ => simp [parseDigits] at hp
  | [c], _ =>
      have hc := (isAsciiDigit_iff c).mp (hs c (by simp))
      simp only [parseDigits, List.foldl_cons, List.foldl_nil, digitVal] at hp
      omega
  | [c1, c2], _ =>
      have hc1 := (isAsciiDigit_iff c1).mp (hs c1 (by simp))
      have hc2 := (isAsciiDigit_iff c2).mp (hs c2 (by simp))
      simp only [parseDigits, List.foldl_cons, List.foldl_nil, digitVal] at hp
      have e1 : c1.toNat = 54 := by omega
      have e2 : c2.toNat = 52 := by omega
      rw [char_of_toNat c1 54 e1, char_of_toNat c2 52 e2]

/-- Evaluation of `processWord` on a token split as a digit-free word part
followed by a digit suffix of one or two characters: the digit scan and
suffix extraction succeed, leaving the "64" branch decision, the
dictionary lookup and the range checks. -/
theorem processWord_eval (d : Dict) (base suf : List Char)
    (hbase : ∀ c ∈ base, isAsciiDigit c = false)
    (hsuf : ∀ c ∈ suf, isAsciiDigit c = true)
    (h1 : 1 ≤ suf.length) (h2 : suf.length ≤ 2) :
    processWord d (base ++ suf) =
      (if suf = ['6', '4'] then
        match dict_index d (base ++ suf) with
        | LookupResult.panicked => StepResult.panicked
        | LookupResult.err => StepResult.err DecodeErr.wordNotFound
        | LookupResult.ok wi =>
            if 255 < wi then StepResult.err DecodeErr.terminalWordOutOfRange
            else StepResult.ok [wi % 256] true
      else
        match dict_index d (base ++ suf) with
        | LookupResult.panicked => StepResult.panicked
        | LookupResult.err => StepResult.err DecodeErr.wordNotFound
        | LookupResult.ok i =>
            if 64 < parseDigits suf then StepResult.err DecodeErr.suffixOutOfRange
            else
              StepResult.ok [(i * 64 % 65536 + parseDigits suf) % 65536 / 256 % 256,
                (i * 64 % 65536 + parseDigits suf) % 65536 % 256] false) := by
  have hcd : countDigits (base ++ suf) 0 = Except.ok suf.length :=
    (countDigits_nodigit base suf hbase).trans (countDigits_digits suf hsuf (by omega))
  unfold processWord
  rw [hcd]
  dsimp only
  rw [if_neg (by omega)]
  rw [suffix_extract base suf h1 h2]

/-- C10: for every accepted non-terminal token the u16 computation never wraps:
the word index is at most 1023 and the accepted suffix value at most 63
(the value 64 is diverted to the terminal branch by string comparison),
so `word_index*64 + suffix` is at most 65535 and the explicit `% 65536`
reductions are identities. -/
theorem c10_no_overflow (d : Dict) (w : List Char) (dg idx : Nat)
    (hcd : countDigits w 0 = Except.ok dg) (hdg : dg ≠ 0)
    (hne : w.drop (w.length - dg) ≠ ['6', '4'])
    (hidx : dict_index d w = LookupResult.ok idx)
    (hacc : parseDigits (w.drop (w.length - dg)) ≤ 64) :
    idx * 64 % 65536 = idx * 64 ∧
    (idx * 64 + parseDigits (w.drop (w.length - dg))) % 65536 =
      idx * 64 + parseDigits (w.drop (w.length - dg)) ∧
    idx * 64 + parseDigits (w.drop (w.length - dg)) ≤ 65535 := by
  obtain ⟨base, suf, rfl, hlen, hbase, hsufd, hle2⟩ := countDigits_ok w dg hcd
  have hsufeq : (base ++ suf).drop ((base ++ suf).length - dg) = suf := by
    rw [← hlen]; exact drop_len_sub base suf
  rw [hsufeq] at hne hacc ⊢
  have hidxlt : idx < 1024 := dict_index_lt d _ idx hidx
  have hp63 : parseDigits suf ≤ 63 := by
    rcases Nat.lt_or_ge (parseDigits suf) 64 with hlt | hge
    · omega
    · have he : parseDigits suf = 64 := by omega
      exact absurd (parse_eq_64 suf hsufd (by omega) he) hne
  exact ⟨Nat.mod_eq_of_lt (by omega), Nat.mod_eq_of_lt (by omega), by omega⟩

theorem c10_no_overflow_witness :
    (countDigits ['a', 'a', 'a', '7'] 0 = Except.ok 1 ∧ (1 : Nat) ≠ 0 ∧
      (['a', 'a', 'a', '7'] : List Char).drop 3 ≠ ['6', '4'] ∧
      dict_index concreteDict ['a', 'a', 'a', '7'] = LookupResult.ok 0 ∧
      parseDigits ((['a', 'a', 'a', '7'] : List Char).drop 3) ≤ 64) ∧
    ((0 : Nat) * 64 % 65536 = 0 * 64 ∧
      ((0 : Nat) * 64 + parseDigits ((['a', 'a', 'a', '7'] : List Char).drop 3)) % 65536 =
        0 * 64 + parseDigits ((['a', 'a', 'a', '7'] : List Char).drop 3) ∧
      (0 : Nat) * 64 + parseDigits ((['a', 'a', 'a', '7'] : List Char).drop 3) ≤ 65535) :=
  ⟨⟨by decide, by decide, by decide, by decide, by decide⟩,
    c10_no_overflow concreteDict ['a', 'a', 'a', '7'] 1 0 (by decide) (by decide) (by decide)
      (by decide) (by decide)⟩

/-- C5 counterexample: on the phrase "zzz99" the (non-terminal) suffix
value 99 exceeds 64, yet the call does not fail with the suffix-range
error: the dictionary lookup fails first, so the word-not-found error is
returned instead.  This refutes the claim's "fails with a suffix-range
error exactly when the parsed suffix value exceeds 64" as stated. -/
theorem c5_counterexample :
    64 < parseDigits ((['z', 'z', 'z', '9', '9'] : List Char).drop 3) ∧
      phrase_to_binary concreteDict ['z', 'z', 'z', '9', '9'] =
        DecodeResult.err DecodeErr.wordNotFound ∧
      phrase_to_binary concreteDict ['z', 'z', 'z', '9', '9'] ≠
        DecodeResult.err DecodeErr.suffixOutOfRange :=
  ⟨by decide, by decide, by decide⟩

/-- C5 (amended with word resolution): for every token whose suffix string
is not "64" and whose word resolves in the dictionary, processing fails
with the suffix-range error exactly when the parsed suffix value exceeds
64 (boundary: greater than 64 rejected, 64 itself unreachable here); an
accepted token contributes value = word_index*64 + suffix and appends the
bytes value div 256 then value mod 256, most significant first. -/
theorem c5_nonterminal (d : Dict) (w : List Char) (dg idx : Nat)
    (hcd : countDigits w 0 = Except.ok dg) (hdg : dg ≠ 0)
    (hne : w.drop (w.length - dg) ≠ ['6', '4'])
    (hidx : dict_index d w = LookupResult.ok idx) :
    (64 < parseDigits (w.drop (w.length - dg)) →
      processWord d w = StepResult.err DecodeErr.suffixOutOfRange) ∧
    (parseDigits (w.drop (w.length - dg)) ≤ 64 →
      processWord d w = StepResult.ok
        [(idx * 64 + parseDigits (w.drop (w.length - dg))) / 256,
          (idx * 64 + parseDigits (w.drop (w.length - dg))) % 256] false) := by
  obtain ⟨base, suf, rfl, hlen, hbase, hsufd, hle2⟩ := countDigits_ok w dg hcd
  have hsufeq : (base ++ suf).drop ((base ++ suf).length - dg) = suf := by
    rw [← hlen]; exact drop_len_sub base suf
  rw [hsufeq] at hne ⊢
  have hidxlt : idx < 1024 := dict_index_lt d _ idx hidx
  rw [processWord_eval d base suf hbase hsufd (by omega) (by omega)]
  rw [if_neg hne, hidx]
  dsimp only
  constructor
  · intro hgt
    rw [if_pos hgt]
  · intro hle
    have hp63 : parseDigits suf ≤ 63 := by
      rcases Nat.lt_or_ge (parseDigits suf) 64 with hlt | hge
      · omega
      · have he : parseDigits suf = 64 := by omega
        exact absurd (parse_eq_64 suf hsufd (by omega) he) hne
    rw [if_neg (by omega)]
    have e1 : (idx * 64 % 65536 + parseDigits suf) % 65536 = idx * 64 + parseDigits suf := by
      omega
    rw [e1]
    have e2 : (idx * 64 + parseDigits suf) / 256 % 256 = (idx * 64 + parseDigits suf) / 256 := by
      omega
    rw [e2]

theorem c5_nonterminal_witness :
    (countDigits ['a', 'a', 'a', '7', '0'] 0 = Except.ok 2 ∧ (2 : Nat) ≠ 0 ∧
      (['a', 'a', 'a', '7', '0'] : List Char).drop 3 ≠ ['6', '4'] ∧
      dict_index concreteDict ['a', 'a', 'a', '7', '0'] = LookupResult.ok 0) ∧
    ((64 < parseDigits ((['a', 'a', 'a', '7', '0'] : List Char).drop 3) →
        processWord concreteDict ['a', 'a', 'a', '7', '0'] =
          StepResult.err DecodeErr.suffixOutOfRange) ∧
      (parseDigits ((['a', 'a', 'a', '7', '0'] : List Char).drop 3) ≤ 64 →
        processWord concreteDict ['a', 'a', 'a', '7', '0'] = StepResult.ok
          [(0 * 64 + parseDigits ((['a', 'a', 'a', '7', '0'] : List Char).drop 3)) / 256,
            (0 * 64 + parseDigits ((['a', 'a', 'a', '7', '0'] : List Char).drop 3)) % 256]
          false)) :=
  ⟨⟨by decide, by decide, by decide, by decide⟩,
    c5_nonterminal concreteDict ['a', 'a', 'a', '7', '0'] 2 0 (by decide) (by decide) (by decide)
      (by decide)⟩

/-- C7: for every token whose suffix string is "64" and whose word
resolves in the dictionary, processing fails exactly when the resolved
index exceeds 255, with the terminal-word-out-of-range error; an index in
[0,255] is appended as exactly one output byte and marks the token
terminal. -/
theorem c7_terminal (d : Dict) (w : List Char) (dg idx : Nat)
    (hcd : countDigits w 0 = Except.ok dg) (hdg : dg ≠ 0)
    (hsuf : w.drop (w.length - dg) = ['6', '4'])
    (hidx : dict_index d w = LookupResult.ok idx) :
    (255 < idx → processWord d w = StepResult.err DecodeErr.terminalWordOutOfRange) ∧
    (idx ≤ 255 → processWord d w = StepResult.ok [idx] true) := by
  obtain ⟨base, suf, rfl, hlen, hbase, hsufd, hle2⟩ := countDigits_ok w dg hcd
  have hsufeq : (base ++ suf).drop ((base ++ suf).length - dg) = suf := by
    rw [← hlen]; exact drop_len_sub base suf
  rw [hsufeq] at hsuf
  subst hsuf
  rw [processWord_eval d base ['6', '4'] hbase (by decide) (by simp) (by simp)]
  rw [if_pos rfl, hidx]
  dsimp only
  constructor
  · intro hgt
    rw [if_pos hgt]
  · intro hle
    rw [if_neg (by omega)]
    rw [Nat.mod_eq_of_lt (by omega)]

theorem c7_terminal_witness :
    (countDigits ['a', 'l', 'o', '6', '4'] 0 = Except.ok 2 ∧ (2 : Nat) ≠ 0 ∧
      (['a', 'l', 'o', '6', '4'] : List Char).drop 3 = ['6', '4'] ∧
      dict_index concreteDict ['a', 'l', 'o', '6', '4'] = LookupResult.ok 300) ∧
    ((255 < 300 → processWord concreteDict ['a', 'l', 'o', '6', '4'] =
        StepResult.err DecodeErr.terminalWordOutOfRange) ∧
      (300 ≤ 255 → processWord concreteDict ['a', 'l', 'o', '6', '4'] =
        StepResult.ok [300] true)) :=
  ⟨⟨by decide, by decide, by decide, by decide⟩,
    c7_terminal concreteDict ['a', 'l', 'o', '6', '4'] 2 300 (by decide) (by decide) (by decide)
      (by decide)⟩

/-! The `finalized` flag: a consumed terminal token poisons the rest of
the loop. -/

theorem decodeLoop_after_terminal (d : Dict) :
    ∀ pre : List (List Char), ∀ acc,
      (∀ x ∈ pre, ∃ bs, processWord d x = StepResult.ok bs false) →
      ∀ t rest, (∃ bs, processWord d t = StepResult.ok bs true) → rest ≠ [] →
        decodeLoop d false acc (pre ++ t :: rest) =
          DecodeResult.err DecodeErr.misplacedTerminal := by
  intro pre
  induction pre with
  | nil =>
      intro acc _ t rest hterm hrest
      obtain ⟨bs, hbs⟩ := hterm
      simp only [List.nil_append, decodeLoop, Bool.false_eq_true, if_false]
      rw [hbs]
      cases rest with
      | nil => exact absurd rfl hrest
      | cons r rs => rfl
  | cons x pre ih =>
      intro acc hpre t rest hterm hrest
      obtain ⟨bs, hbs⟩ := hpre x (List.mem_cons_self x pre)
      simp only [List.cons_append, decodeLoop, Bool.false_eq_true, if_false]
      rw [hbs]
      exact ih (acc ++ bs) (fun y hy => hpre y (List.mem_cons_of_mem x hy)) t rest hterm hrest

/-- C6 counterexample: the phrase "x abc64 aaa0" contains a token with
suffix string "64" followed by a further token, yet `phrase_to_binary`
fails with the missing-suffix error for the earlier malformed token "x",
not with the misplaced-terminal error.  This refutes "for every phrase in
which a token with suffix string 64 is followed by a further token, the
call fails with the misplaced-terminal error" as stated. -/
theorem c6_counterexample :
    (['a', 'b', 'c', '6', '4'] : List Char).drop 3 = ['6', '4'] ∧
      splitSpace ['x', ' ', 'a', 'b', 'c', '6', '4', ' ', 'a', 'a', 'a', '0'] =
        [['x'], ['a', 'b', 'c', '6', '4'], ['a', 'a', 'a', '0']] ∧
      phrase_to_binary concreteDict ['x', ' ', 'a', 'b', 'c', '6', '4', ' ', 'a', 'a', 'a', '0'] =
        DecodeResult.err DecodeErr.missingSuffix ∧
      phrase_to_binary concreteDict ['x', ' ', 'a', 'b', 'c', '6', '4', ' ', 'a', 'a', 'a', '0'] ≠
        DecodeResult.err DecodeErr.misplacedTerminal :=
  ⟨by decide, by decide, by decide, by decide⟩

/-- C6 (amended to require the terminal token to be reached and consumed):
once a terminal token has been consumed — every earlier token processes
successfully as a non-terminal token and the terminal token itself
processes successfully — any further token makes `phrase_to_binary`
return the misplaced-terminal error, and no byte sequence. -/
theorem c6_misplaced_terminal (d : Dict) (p : List Char) (pre : List (List Char))
    (t : List Char) (rest : List (List Char))
    (hsplit : splitSpace p = pre ++ t :: rest)
    (hpre : ∀ x ∈ pre, ∃ bs, processWord d x = StepResult.ok bs false)
    (hterm : ∃ bs, processWord d t = StepResult.ok bs true)
    (hrest : rest ≠ []) :
    phrase_to_binary d p = DecodeResult.err DecodeErr.misplacedTerminal := by
  have hpne : p ≠ [] := by
    intro hnil
    subst hnil
    have hlen := congrArg List.length hsplit
    simp only [splitSpace, List.length_singleton, List.length_append, List.length_cons] at hlen
    cases rest with
    | nil => exact absurd rfl hrest
    | cons r rs => simp at hlen; omega
  unfold phrase_to_binary
  rw [if_neg hpne, hsplit]
  exact decodeLoop_after_terminal d pre [] hpre t rest hterm hrest

theorem c6_misplaced_terminal_witness :
    (splitSpace ['a', 'a', 'a', '6', '4', ' ', 'a', 'a', 'a', '0'] =
        [] ++ ['a', 'a', 'a', '6', '4'] :: [['a', 'a', 'a', '0']] ∧
      (∀ x ∈ ([] : List (List Char)), ∃ bs, processWord concreteDict x = StepResult.ok bs false) ∧
      (∃ bs, processWord concreteDict ['a', 'a', 'a', '6', '4'] = StepResult.ok bs true) ∧
      ([['a', 'a', 'a', '0']] : List (List Char)) ≠ []) ∧
    phrase_to_binary concreteDict ['a', 'a', 'a', '6', '4', ' ', 'a', 'a', 'a', '0'] =
      DecodeResult.err DecodeErr.misplacedTerminal :=
  ⟨⟨by decide, by simp, ⟨[0], by decide⟩, by decide⟩,
    c6_misplaced_terminal concreteDict ['a', 'a', 'a', '6', '4', ' ', 'a', 'a', 'a', '0'] []
      ['a', 'a', 'a', '6', '4'] [['a', 'a', 'a', '0']] (by decide) (by simp)
      ⟨[0], by decide⟩ (by decide)⟩

/-- C2: the claim says a token whose word is shorter than the
unique-prefix length yields a returned MalformedWord-style error and that
`phrase_to_binary` never panics.  The code has no length check before the
slice `&word[..DICTIONARY_UNIQUE_PREFIX]` in `dict_index`, so the
two-character token "a1" (one letter, one digit, shorter than the prefix
length 3) panics: the claim describes the spec's stated intent and the
code contradicts it. -/
theorem c2_short_token_panics :
    phrase_to_binary concreteDict ['a', '1'] = DecodeResult.panicked := by decide

/-! Prefix tolerance: truncating each token's word part to the
unique-prefix length preserves decoding. -/

theorem takeWhile_append_all (p : Char → Bool) (l1 l2 : List Char)
    (h : ∀ a ∈ l1, p a = true) :
    (l1 ++ l2).takeWhile p = l1 ++ l2.takeWhile p := by
  induction l1 with
  | nil => rfl
  | cons c cs ih =>
      rw [List.cons_append, List.takeWhile_cons, if_pos (h c (List.mem_cons_self c cs))]
      rw [ih (fun a ha => h a (List.mem_cons_of_mem c ha))]
      rfl

theorem takeWhile_eq_nil_all (p : Char → Bool) (l : List Char)
    (h : ∀ a ∈ l, p a = false) : l.takeWhile p = [] := by
  cases l with
  | nil => rfl
  | cons c cs =>
      rw [List.takeWhile_cons, if_neg]
      rw [h c (List.mem_cons_self c cs)]
      simp

theorem trailDigits_decomp (base suf : List Char)
    (hbase : ∀ c ∈ base, isAsciiDigit c = false)
    (hsuf : ∀ c ∈ suf, isAsciiDigit c = true) :
    trailDigits (base ++ suf) = suf.length := by
  unfold trailDigits
  rw [List.reverse_append]
  rw [takeWhile_append_all isAsciiDigit suf.reverse base.reverse
    (fun a ha => hsuf a (List.mem_reverse.mp ha))]
  rw [takeWhile_eq_nil_all isAsciiDigit base.reverse
    (fun a ha => hbase a (List.mem_reverse.mp ha))]
  simp

theorem truncToken_decomp (d : Dict) (base suf : List Char)
    (hbase : ∀ c ∈ base, isAsciiDigit c = false)
    (hsuf : ∀ c ∈ suf, isAsciiDigit c = true) :
    truncToken d (base ++ suf) = base.take d.upl ++ suf := by
  unfold truncToken
  rw [trailDigits_decomp base suf hbase hsuf]
  have hlen : (base ++ suf).length - suf.length = base.length := by
    rw [List.length_append]; omega
  rw [hlen, List.take_left, List.drop_left]

/-- Inversion of a successful `processWord`: the token splits into a
digit-free word part and a one-or-two character digit suffix, and its
dictionary lookup succeeds. -/
theorem processWord_ok_inv (d : Dict) (w : List Char) (bs : List Nat) (term : Bool)
    (h : processWord d w = StepResult.ok bs term) :
    ∃ base suf idx, w = base ++ suf ∧ 1 ≤ suf.length ∧ suf.length ≤ 2 ∧
      (∀ c ∈ base, isAsciiDigit c = false) ∧ (∀ c ∈ suf, isAsciiDigit c = true) ∧
      dict_index d (base ++ suf) = LookupResult.ok idx := by
  cases hcd : countDigits w 0 with
  | error e =>
      unfold processWord at h
      rw [hcd] at h
      simp at h
  | ok dg =>
      obtain ⟨base, suf, rfl, hlen, hbase, hsufd, hle⟩ := countDigits_ok _ _ hcd
      by_cases hdg : dg = 0
      · unfold processWord at h
        rw [hcd] at h
        dsimp only at h
        rw [if_pos hdg] at h
        simp at h
      · have h1 : 1 ≤ suf.length := by omega
        rw [processWord_eval d base suf hbase hsufd h1 (by omega)] at h
        cases hdi : dict_index d (base ++ suf) with
        | ok idx => exact ⟨base, suf, idx, rfl, h1, by omega, hbase, hsufd, hdi⟩
        | err =>
            rw [hdi] at h
            split at h <;> simp at h
        | panicked =>
            rw [hdi] at h
            split at h <;> simp at h

/-- Truncating the word part of a successfully processed token to the
unique-prefix length leaves the processing result unchanged. -/
theorem processWord_trunc (d : Dict) (w : List Char) (bs : List Nat) (term : Bool)
    (h : processWord d w = StepResult.ok bs term) :
    processWord d (truncToken d w) = StepResult.ok bs term := by
  obtain ⟨base, suf, idx, rfl, h1, h2, hbase, hsufd, hdi⟩ := processWord_ok_inv d w bs term h
  rw [truncToken_decomp d base suf hbase hsufd]
  have hdi2 : dict_index d (base.take d.upl ++ suf) = dict_index d (base ++ suf) := by
    by_cases hb : d.upl ≤ base.length
    · unfold dict_index
      have hul : d.upl ≤ (base ++ suf).length := by
        rw [List.length_append]; omega
      have hul2 : d.upl ≤ (base.take d.upl ++ suf).length := by
        rw [List.length_append, List.length_take]; omega
      rw [if_neg (by omega), if_neg (by omega)]
      have t1 : (base ++ suf).take d.upl = base.take d.upl :=
        List.take_append_of_le_length hb
      have t2 : (base.take d.upl ++ suf).take d.upl = base.take d.upl := by
        rw [List.take_append_of_le_length (by rw [List.length_take]; omega)]
        rw [List.take_take]
        simp
      rw [t1, t2]
    · rw [List.take_of_length_le (by omega)]
  rw [processWord_eval d (base.take d.upl) suf
    (fun c hc => hbase c (List.take_subset _ _ hc)) hsufd h1 h2]
  rw [processWord_eval d base suf hbase hsufd h1 h2] at h
  rw [hdi2]
  exact h

theorem decodeLoop_trunc (d : Dict) :
    ∀ toks : List (List Char), ∀ fin acc bs,
      decodeLoop d fin acc toks = DecodeResult.ok bs →
      decodeLoop d fin acc (toks.map (truncToken d)) = DecodeResult.ok bs := by
  intro toks
  induction toks with
  | nil => intro fin acc bs h; simpa using h
  | cons t ts ih =>
      intro fin acc bs h
      cases fin with
      | true => simp [decodeLoop] at h
      | false =>
          simp only [decodeLoop, Bool.false_eq_true, if_false] at h
          simp only [List.map_cons, decodeLoop, Bool.false_eq_true, if_false]
          cases hpt : processWord d t with
          | ok bs' term =>
              rw [hpt] at h
              rw [processWord_trunc d t bs' term hpt]
              exact ih term (acc ++ bs') bs h
          | err e => rw [hpt] at h; simp at h
          | panicked => rw [hpt] at h; simp at h

/-- C9: for every phrase that decodes successfully, truncating each
token's word part to the dictionary's unique-prefix length (keeping the
numeric suffix) yields a phrase that decodes to the same bytes. -/
theorem c9_truncation (d : Dict) (p : List Char) (bs : List Nat)
    (h : phrase_to_binary d p = DecodeResult.ok bs) :
    phrase_to_binary d (joinTokens ((splitSpace p).map (truncToken d))) =
      DecodeResult.ok bs := by
  by_cases hp : p = []
  · subst hp
    unfold phrase_to_binary at h
    rw [if_pos rfl] at h
    simp only [DecodeResult.ok.injEq] at h
    subst h
    show phrase_to_binary d (joinTokens ((splitSpace []).map (truncToken d))) =
      DecodeResult.ok []
    have : (splitSpace []).map (truncToken d) = [[]] := by
      simp [splitSpace, truncToken, trailDigits]
    rw [this]
    rfl
  · unfold phrase_to_binary at h
    rw [if_neg hp] at h
    obtain ⟨t, ts, hsplit⟩ : ∃ t ts, splitSpace p = t :: ts := by
      cases hs : splitSpace p with
      | nil => exact absurd hs (splitSpace_ne_nil p)
      | cons t ts => exact ⟨t, ts, rfl⟩
    rw [hsplit] at h
    have hstep : ∃ bs' term, processWord d t = StepResult.ok bs' term := by
      simp only [decodeLoop, Bool.false_eq_true, if_false] at h
      cases hpt : processWord d t with
      | ok bs' term => exact ⟨bs', term, rfl⟩
      | err e => rw [hpt] at h; simp at h
      | panicked => rw [hpt] at h; simp at h
    obtain ⟨bs', term, hpt⟩ := hstep
    obtain ⟨base, suf, idx, hteq, h1, h2, hbase, hsufd, hdi⟩ :=
      processWord_ok_inv d t bs' term hpt
    have htne : truncToken d t ≠ [] := by
      rw [hteq, truncToken_decomp d base suf hbase hsufd]
      intro hnil
      have := congrArg List.length hnil
      simp only [List.length_append, List.length_take, List.length_nil] at this
      omega
    have hns : ∀ x ∈ (splitSpace p).map (truncToken d), ' ' ∉ x := by
      intro x hx
      obtain ⟨u, hu, rfl⟩ := List.mem_map.mp hx
      intro hsp
      unfold truncToken at hsp
      rcases List.mem_append.mp hsp with hsp | hsp
      · exact splitSpace_no_space p u hu (List.take_subset _ _ (List.take_subset _ _ hsp))
      · exact splitSpace_no_space p u hu (List.drop_subset _ _ hsp)
    have hmapne : (splitSpace p).map (truncToken d) ≠ [] := by
      rw [hsplit]
      simp
    have hjoinne : joinTokens ((splitSpace p).map (truncToken d)) ≠ [] := by
      rw [hsplit, List.map_cons, joinTokens_eq]
      intro hnil
      exact htne (List.append_eq_nil.mp hnil).1
    unfold phrase_to_binary
    rw [if_neg hjoinne]
    rw [splitSpace_join _ hmapne hns]
    rw [hsplit]
    exact decodeLoop_trunc d (t :: ts) false [] bs (hsplit ▸ h)

theorem c9_truncation_witness :
    phrase_to_binary concreteDict
        ['a', 'a', 'a', 'x', 'y', '5', ' ', 'a', 'a', 'b', 'z', '6', '4'] =
      DecodeResult.ok [0, 5, 1] ∧
    phrase_to_binary concreteDict
        (joinTokens ((splitSpace
          ['a', 'a', 'a', 'x', 'y', '5', ' ', 'a', 'a', 'b', 'z', '6', '4']).map
            (truncToken concreteDict))) =
      DecodeResult.ok [0, 5, 1] :=
  ⟨by decide,
    c9_truncation concreteDict
      ['a', 'a', 'a', 'x', 'y', '5', ' ', 'a', 'a', 'b', 'z', '6', '4'] [0, 5, 1] (by decide)⟩
